import Mathlib

/-!
Verification of `xcomp` (xcomp.py): a tool comparing two paths (files or
directories) by a 64-bit content hash.

Shallow embedding conventions:
* Python `dict`s are association lists with unique keys and insertion order
  (`dictInsert` overwrites in place, `bucketAdd` appends to an existing bucket).
* The external hash primitive (`xxhash.xxh64` streamed by `xxh3`) is an opaque
  digest provider `prov : String → String`; `os.path.abspath` is an opaque
  canonicalizer `ap : String → String`.  Both are parameters of the embedded
  functions.
* `os.walk` output is a list of `(dirpath, filenames)` entries; `FSTree.walk`
  produces such a sequence from a directory tree (top-down, root first), the
  order `os.walk` uses.
* A Python function that may `raise SystemExit(code)` is embedded with result
  `Except Nat _` or with an `Option Nat` exit component: `some code` means the
  process terminates with that status, `none` means the function returns
  normally (process exit status 0 at end of `main`).
* Printed report lines are modelled by the inductive `Line`, one constructor
  per `print` statement shape (the sigil of each line is noted on its
  constructor).  `--verbose`-only diagnostic prints are not modelled; no claim
  mentions them.
-/

/-- A character the cache-line regex treats as lowercase hex: `[a-f0-9]`. -/
def isHexLower (c : Char) : Bool :=
  (Char.ofNat 97 ≤ c && c ≤ Char.ofNat 102) || (Char.ofNat 48 ≤ c && c ≤ Char.ofNat 57)

/-- A whitespace character of the regex class `[ \t]`. -/
def isWs (c : Char) : Bool := c = Char.ofNat 32 || c = Char.ofNat 9

/-- The single-quote character. -/
def quoteChar : Char := Char.ofNat 39

/-- The newline character. -/
def newlineChar : Char := Char.ofNat 10

/-- A character matched by the regex class of the path group, so not a
single quote and not a newline. -/
def isPathChar (c : Char) : Bool := c ≠ quoteChar && c ≠ newlineChar

/-- Matching of the regex tail after the whitespace run was fixed:
an optional single quote, then the greedy path group of one or more
characters from the path class (the trailing optional quote always
succeeds and does not affect the groups).  Returns the path group. -/
def matchAfterWs : List Char → Option (List Char)
  | [] => none
  | c :: rest =>
    if c = quoteChar then
      match rest with
      | [] => none
      | d :: _ =>
        if isPathChar d then some (rest.takeWhile isPathChar) else none
    else
      if isPathChar c then some ((c :: rest).takeWhile isPathChar) else none

/-- Backtracking over the greedy `[ \t]+`: try consuming `w` whitespace
characters, largest first, down to one. -/
def tryWs (after : List Char) : Nat → Option (List Char)
  | 0 => none
  | w + 1 =>
    match matchAfterWs (after.drop (w + 1)) with
    | some g2 => some g2
    | none => tryWs after w

/-- Attempt of the regex at the current position: 16 lowercase-hex characters
(the digest group), then one or more `[ \t]`, then the tail of
`matchAfterWs`.  Returns (digest group, path group). -/
def matchHere (l : List Char) : Option (List Char × List Char) :=
  if (l.take 16).length = 16 && (l.take 16).all isHexLower then
    match tryWs (l.drop 16) ((l.drop 16).takeWhile isWs).length with
    | some g2 => some (l.take 16, g2)
    | none => none
  else none

/-- Leftmost search, as Python `re.search`: try each start position
left to right. -/
def searchLine : List Char → Option (List Char × List Char)
  | [] => none
  | c :: rest =>
    match matchHere (c :: rest) with
    | some r => some r
    | none => searchLine rest

/-- Embedding of `search("([a-f0-9]{16})[ \t]+'?([^'\n]+)'?", line)` from
`load_hash_cache` (xcomp.py line 80): the digest and path groups of the
leftmost match, or `none` when the line has no match. -/
def parseLine (line : String) : Option (String × String) :=
  match searchLine line.data with
  | some (g1, g2) => some (⟨g1⟩, ⟨g2⟩)
  | none => none

/-- Association-list lookup: Python `d[k]` / `k in d`. -/
def dictLookup {α : Type} : List (String × α) → String → Option α
  | [], _ => none
  | kv :: rest, k => if kv.1 = k then some kv.2 else dictLookup rest k

/-- Python `k in d` for a dict modelled as an association list. -/
def hasKey {α : Type} (d : List (String × α)) (k : String) : Bool :=
  d.any (fun kv => kv.1 = k)

/-- Python `d[k] = v`: overwrite in place if the key is present, else append
(insertion order of first insertion is kept, as for a Python dict). -/
def dictInsert : List (String × String) → String → String → List (String × String)
  | [], k, v => [(k, v)]
  | kv :: rest, k, v =>
    if kv.1 = k then (k, v) :: rest else kv :: dictInsert rest k v

/-- One cache source file as `load_hash_cache` sees it: whether the path
exists, and the lines obtained by iterating over the opened file. -/
structure CacheSource where
  present : Bool
  fileLines : List String
deriving DecidableEq

/-- The line loop body of `load_hash_cache` (xcomp.py lines 79-83) folded
over one source's lines: state is (cache dict, at_least_one_match flag). -/
def cacheLinesFold (ap : String → String) (st : List (String × String) × Bool)
    (line : String) : List (String × String) × Bool :=
  match parseLine line with
  | some (digest, p) => (dictInsert st.1 (ap p) digest, true)
  | none => st

/-- The source loop of `load_hash_cache` (xcomp.py lines 73-83): a missing
source file raises `SystemExit(1)` at the point it is reached. -/
def loadCacheGo (ap : String → String) :
    List CacheSource → List (String × String) × Bool →
    Except Nat (List (String × String) × Bool)
  | [], st => .ok st
  | s :: rest, st =>
    if s.present then
      loadCacheGo ap rest (s.fileLines.foldl (cacheLinesFold ap) st)
    else .error 1

/-- Embedding of `load_hash_cache` (xcomp.py lines 69-92): returns the
path→digest cache, or `Except.error 1` for `SystemExit(1)` when a source is
missing or when no line across all sources matched the regex. -/
def load_hash_cache (ap : String → String) (sources : List CacheSource) :
    Except Nat (List (String × String)) :=
  match loadCacheGo ap sources ([], false) with
  | .ok st => if st.2 then .ok st.1 else .error 1
  | .error e => .error e

/-- A digest index (`dict[str, list[str]]`): digest → ordered bucket of
absolute file paths. -/
abbrev Index := List (String × List String)

/-- Python `result_dict[hash].append(path)` with creation of a singleton
bucket when the key is absent (xcomp.py lines 116-119). -/
def bucketAdd : Index → String → String → Index
  | [], h, p => [(h, [p])]
  | kv :: rest, h, p =>
    if kv.1 = h then (kv.1, kv.2 ++ [p]) :: rest else kv :: bucketAdd rest h p

/-- The digest resolved for one visited file (xcomp.py lines 107-112):
cache lookup first, digest provider `prov` on a cache miss. -/
def digestOf (cache : List (String × String)) (prov : String → String)
    (p : String) : String :=
  match dictLookup cache p with
  | some h => h
  | none => prov p

/-- The per-file loop body of `get_hash_dict` (xcomp.py lines 103-119).
State is the index plus, as observational instrumentation, the list of files
whose digest was computed by the provider (the `else` branch at line 112),
recording every provider invocation. -/
def indexStep (cache : List (String × String)) (prov : String → String)
    (acc : Index × List String) (p : String) : Index × List String :=
  match dictLookup cache p with
  | some h => (bucketAdd acc.1 h p, acc.2)
  | none => (bucketAdd acc.1 (prov p) p, acc.2 ++ [p])

/-- The indexing loop over a list of (already canonicalized) visited file
paths. -/
def indexFiles (cache : List (String × String)) (prov : String → String)
    (files : List String) : Index × List String :=
  files.foldl (indexStep cache prov) ([], [])

/-- `os.path.abspath(os.path.join(d, f))` for a walk entry: the directory
path joined with the base name, canonicalized by `ap`
(xcomp.py lines 104-105). -/
def fullPath (ap : String → String) (d fn : String) : String :=
  ap (d ++ "/" ++ fn)

/-- The `os.walk` loop of `get_hash_dict` (xcomp.py lines 102-124): one walk
entry is `(dirpath, filenames)`; after the first entry's files are processed
the function returns unless `recursive` is set (lines 121-122). -/
def ghdGo (cache : List (String × String)) (prov ap : String → String)
    (recursive : Bool) :
    List (String × List String) → Index × List String → Index × List String
  | [], acc => acc
  | (d, fns) :: rest, acc =>
    let acc2 := fns.foldl (fun a fn => indexStep cache prov a (fullPath ap d fn)) acc
    if recursive then ghdGo cache prov ap recursive rest acc2 else acc2

/-- Embedding of `get_hash_dict` (xcomp.py lines 95-124) applied to the walk
sequence of the directory argument.  The cache-loading prologue
(lines 99-100) is embedded separately as `load_hash_cache`; the successfully
loaded cache dict (empty when `--cache_file` was not given) is the `cache`
parameter.  First component: the digest index; second component (the
instrumentation of `indexStep`): the files hashed by the provider. -/
def get_hash_dict (cache : List (String × String)) (prov ap : String → String)
    (recursive : Bool) (w : List (String × List String)) : Index × List String :=
  ghdGo cache prov ap recursive w ([], [])

/-- The file paths `get_hash_dict` visits on a walk sequence: the first
entry's files, and the remaining entries' files only in recursive mode. -/
def visitedFiles (ap : String → String) (recursive : Bool) :
    List (String × List String) → List String
  | [] => []
  | (d, fns) :: rest =>
    fns.map (fullPath ap d) ++
      (if recursive then visitedFiles ap recursive rest else [])

/- A directory tree: a node holds its immediate files (base names) and its
named subdirectories; a forest is an ordered list of named subtrees. -/
mutual

inductive FSTree where
  | node (files : List String) (subdirs : FSForest)

inductive FSForest where
  | nil
  | cons (name : String) (t : FSTree) (rest : FSForest)

end

mutual

/-- `os.walk` (top-down, the default): the root entry first, then the walks of
the subdirectories in order. -/
def FSTree.walk (cur : String) : FSTree → List (String × List String)
  | .node fs sds => (cur, fs) :: FSForest.walk cur sds

/-- Walks of the subtrees of a directory at path `cur`, concatenated. -/
def FSForest.walk (cur : String) : FSForest → List (String × List String)
  | .nil => []
  | .cons name t rest => FSTree.walk (cur ++ "/" ++ name) t ++ FSForest.walk cur rest

end

/-- The full paths of the immediate (top-level) files of a directory at
path `cur`, canonicalized by `ap`. -/
def FSTree.topFiles (ap : String → String) (cur : String) : FSTree → List String
  | .node fs _ => fs.map (fullPath ap cur)

mutual

/-- The full paths of every file in the tree, in walk order. -/
def FSTree.allFiles (ap : String → String) (cur : String) : FSTree → List String
  | .node fs sds => fs.map (fullPath ap cur) ++ FSForest.allFiles ap cur sds

/-- The full paths of every file of every subtree. -/
def FSForest.allFiles (ap : String → String) (cur : String) : FSForest → List String
  | .nil => []
  | .cons name t rest =>
    FSTree.allFiles ap (cur ++ "/" ++ name) t ++ FSForest.allFiles ap cur rest

end

/-- One printed report line, one constructor per `print` shape of the
comparison functions and `main` (sigils noted). -/
inductive Line where
  /-- sigil `{`: internal duplicate bucket on the left (xcomp.py line 157) -/
  | dupL (digest : String) (paths : List String)
  /-- sigil `}`: internal duplicate bucket on the right (line 161) -/
  | dupR (digest : String) (paths : List String)
  /-- sigil `<`: a digest/path pair on the left only (lines 145, 167) -/
  | uniqL (digest : String) (p : String)
  /-- sigil `>`: a digest/path pair on the right only (lines 146, 173) -/
  | uniqR (digest : String) (p : String)
  /-- sigil `=` with a path list: redundant content (lines 137-140, 175) -/
  | redundant (digest : String) (paths : List String)
  /-- the overall verdict `=input files are redundant` (line 142) -/
  | verdictFiles
  /-- the overall verdict `=input directories are redundant` (line 178) -/
  | verdictDirs
  /-- diagnostic: a path does not exist (lines 193-195) -/
  | errNotExists (p : String)
  /-- diagnostic: file compared with directory (lines 199-202) -/
  | errFileVsDir (p1 p2 : String)
  /-- diagnostic: directory compared with file (lines 206-209) -/
  | errDirVsFile (p1 p2 : String)
deriving DecidableEq

/-- Embedding of `show_file_comparison` (xcomp.py lines 127-147): the digests
of the two paths are compared; output lines and the `SystemExit` status
(`none` = normal return). -/
def show_file_comparison (prov ap : String → String) (p1 p2 : String) :
    List Line × Option Nat :=
  let h1 := prov p1
  let h2 := prov p2
  if h1 = h2 then
    ((if p1 ≠ p2 then [Line.redundant h1 [ap p1, ap p2]] else []) ++
      [Line.verdictFiles], none)
  else
    ([Line.uniqL h1 (ap p1), Line.uniqR h2 (ap p2)], some 1)

/-- Python `d1[key]` read during reporting; on the indexes built by
`get_hash_dict` the key is always present when read (guarded by `key in
dict_path1`), so the default `[]` is never used there. -/
def bucketGet (d : Index) (k : String) : List String :=
  (dictLookup d k).getD []

/-- The final value of the `content_redundancy` flag of
`show_directory_comparison`: it starts `True` and is set `False` once for
every key of either index missing from the other (lines 163-173). -/
def content_redundancy (d1 d2 : Index) : Bool :=
  d1.all (fun kv => hasKey d2 kv.1) && d2.all (fun kv => hasKey d1 kv.1)

/-- Embedding of `show_directory_comparison` (xcomp.py lines 150-178), given
the two digest indexes: the four reporting loops in order, then the overall
verdict when the flag is still set.  The function body contains no `raise`,
so it always returns normally. -/
def show_directory_comparison (d1 d2 : Index) : List Line :=
  ((d1.filter (fun kv => kv.2.length > 1)).map (fun kv => Line.dupL kv.1 kv.2)) ++
  ((d2.filter (fun kv => kv.2.length > 1)).map (fun kv => Line.dupR kv.1 kv.2)) ++
  ((d1.filter (fun kv => !(hasKey d2 kv.1))).flatMap
    (fun kv => kv.2.map (Line.uniqL kv.1))) ++
  (d2.flatMap (fun kv =>
    if hasKey d1 kv.1 then [Line.redundant kv.1 (bucketGet d1 kv.1 ++ kv.2)]
    else kv.2.map (Line.uniqR kv.1))) ++
  (if content_redundancy d1 d2 then [Line.verdictDirs] else [])

/-- `os.path` status of one input path, as the three predicates `main`
consults: `isfile`, `isdir`, `exists`. -/
structure PathInfo where
  isFile : Bool
  isDir : Bool
  pathExists : Bool
deriving DecidableEq

/-- Embedding of `main` (xcomp.py lines 181-210), named `xcompMain` since
`main` is reserved for an executable entry point.  `i1`/`i2` are the
`os.path` statuses of the two input paths, `w1`/`w2` their walk sequences
(consumed only in the directory branch), `cache` the loaded hash cache
(empty when `--cache_file` was absent).  Result: printed lines and the
`SystemExit` status (`none` = fall through and return, process exit 0). -/
def xcompMain (i1 i2 : PathInfo) (p1 p2 : String) (prov ap : String → String)
    (cache : List (String × String)) (recursive : Bool)
    (w1 w2 : List (String × List String)) : List Line × Option Nat :=
  if i1.isFile && i2.isFile then
    show_file_comparison prov ap p1 p2
  else if i1.isDir && i2.isDir then
    (show_directory_comparison
      (get_hash_dict cache prov ap recursive w1).1
      (get_hash_dict cache prov ap recursive w2).1, none)
  else if !i1.pathExists || !i2.pathExists then
    ((if !i1.pathExists then [Line.errNotExists p1] else []) ++
      (if !i2.pathExists then [Line.errNotExists p2] else []), some 1)
  else if i1.isFile && i2.isDir then
    ([Line.errFileVsDir p1 p2], some 1)
  else if i1.isDir && i2.isFile then
    ([Line.errDirVsFile p1 p2], some 1)
  else
    ([], none)

/-! ## Helper lemmas on dictionaries and buckets -/

theorem bucketGet_bucketAdd_self (d : Index) (h p : String) :
    bucketGet (bucketAdd d h p) h = bucketGet d h ++ [p] := by
  induction d with
  | nil => simp [bucketAdd, bucketGet, dictLookup]
  | cons kv rest ih =>
    by_cases hk : kv.1 = h
    · simp [bucketAdd, hk, bucketGet, dictLookup]
    · simp only [bucketAdd, hk, if_false, bucketGet, dictLookup]
      simpa [bucketGet] using ih

theorem bucketGet_bucketAdd_other (d : Index) (h h' p : String) (hne : h' ≠ h) :
    bucketGet (bucketAdd d h' p) h = bucketGet d h := by
  induction d with
  | nil => simp [bucketAdd, bucketGet, dictLookup, hne]
  | cons kv rest ih =>
    by_cases hk : kv.1 = h'
    · simp [bucketAdd, hk, bucketGet, dictLookup, hne, Ne.symm hne]
    · by_cases hk2 : kv.1 = h
      · simp [bucketAdd, hk, hk2, bucketGet, dictLookup, Ne.symm hne]
      · simp only [bucketAdd, hk, if_false, bucketGet, dictLookup, hk2]
        simpa [bucketGet] using ih

theorem mem_bucketGet_bucketAdd (d : Index) (h h' p q : String)
    (hq : q ∈ bucketGet d h) : q ∈ bucketGet (bucketAdd d h' p) h := by
  by_cases he : h' = h
  · subst he; rw [bucketGet_bucketAdd_self]; exact List.mem_append_left _ hq
  · rwa [bucketGet_bucketAdd_other _ _ _ _ he]

theorem self_mem_bucketGet_bucketAdd (d : Index) (h p : String) :
    p ∈ bucketGet (bucketAdd d h p) h := by
  rw [bucketGet_bucketAdd_self]; exact List.mem_append_right _ (List.mem_singleton.2 rfl)

/-- `indexStep` always adds the visited file to the bucket of its resolved
digest. -/
theorem indexStep_fst (cache : List (String × String)) (prov : String → String)
    (acc : Index × List String) (p : String) :
    (indexStep cache prov acc p).1 = bucketAdd acc.1 (digestOf cache prov p) p := by
  unfold indexStep digestOf
  cases dictLookup cache p <;> rfl

theorem indexStep_snd (cache : List (String × String)) (prov : String → String)
    (acc : Index × List String) (p : String) :
    (indexStep cache prov acc p).2 =
      acc.2 ++ (if (dictLookup cache p).isNone then [p] else []) := by
  unfold indexStep
  cases dictLookup cache p <;> simp

/-! ## The walk loop equals indexing of the visited-file list -/

theorem ghdGo_eq_foldl (cache : List (String × String)) (prov ap : String → String)
    (recursive : Bool) (w : List (String × List String)) (acc : Index × List String) :
    ghdGo cache prov ap recursive w acc =
      (visitedFiles ap recursive w).foldl (indexStep cache prov) acc := by
  induction w generalizing acc with
  | nil => rfl
  | cons e rest ih =>
    obtain ⟨d, fns⟩ := e
    simp only [ghdGo, visitedFiles, List.foldl_append, List.foldl_map]
    cases recursive with
    | false => simp
    | true => simp [ih]

/-- `get_hash_dict` is the per-file indexing loop applied to exactly the
visited files of the walk. -/
theorem get_hash_dict_eq_indexFiles (cache : List (String × String))
    (prov ap : String → String) (recursive : Bool)
    (w : List (String × List String)) :
    get_hash_dict cache prov ap recursive w =
      indexFiles cache prov (visitedFiles ap recursive w) :=
  ghdGo_eq_foldl cache prov ap recursive w ([], [])

/-! ## Characterization of the indexing fold -/

/-- The provider-call instrumentation collects exactly the cache misses, in
visitation order. -/
theorem foldl_indexStep_snd (cache : List (String × String)) (prov : String → String)
    (files : List String) (acc : Index × List String) :
    (files.foldl (indexStep cache prov) acc).2 =
      acc.2 ++ files.filter (fun q => (dictLookup cache q).isNone) := by
  induction files generalizing acc with
  | nil => simp
  | cons q rest ih =>
    rw [List.foldl_cons, ih]
    cases hq : dictLookup cache q with
    | some h => simp [indexStep, hq, List.filter_cons, hq]
    | none => simp [indexStep, hq, List.filter_cons, hq]

/-- Bucket membership is preserved by the indexing fold. -/
theorem mem_bucketGet_foldl_of_mem (cache : List (String × String))
    (prov : String → String) (files : List String) (acc : Index × List String)
    (h q : String) (hq : q ∈ bucketGet acc.1 h) :
    q ∈ bucketGet ((files.foldl (indexStep cache prov) acc).1) h := by
  induction files generalizing acc with
  | nil => exact hq
  | cons p rest ih =>
    rw [List.foldl_cons]
    refine ih _ ?_
    rw [indexStep_fst]
    exact mem_bucketGet_bucketAdd _ _ _ _ _ hq

/-- Every visited file ends up in the bucket of its resolved digest. -/
theorem mem_bucketGet_foldl (cache : List (String × String))
    (prov : String → String) (files : List String) (acc : Index × List String)
    (p : String) (hp : p ∈ files) :
    p ∈ bucketGet ((files.foldl (indexStep cache prov) acc).1)
      (digestOf cache prov p) := by
  induction files generalizing acc with
  | nil => cases hp
  | cons q rest ih =>
    rw [List.foldl_cons]
    rcases List.mem_cons.1 hp with hpq | hpr
    · subst hpq
      refine mem_bucketGet_foldl_of_mem _ _ _ _ _ _ ?_
      rw [indexStep_fst]
      exact self_mem_bucketGet_bucketAdd _ _ _
    · exact ih _ hpr

/-- The index never consults the provider on a cached path: two providers
agreeing on all cache misses build identical states. -/
theorem foldl_indexStep_prov_agree (cache : List (String × String))
    (prov prov2 : String → String)
    (hag : ∀ q, dictLookup cache q = none → prov q = prov2 q)
    (files : List String) (acc : Index × List String) :
    files.foldl (indexStep cache prov) acc =
      files.foldl (indexStep cache prov2) acc := by
  induction files generalizing acc with
  | nil => rfl
  | cons q rest ih =>
    rw [List.foldl_cons, List.foldl_cons]
    have hstep : indexStep cache prov acc q = indexStep cache prov2 acc q := by
      unfold indexStep
      cases hq : dictLookup cache q with
      | some h => rfl
      | none => rw [hag q hq]
    rw [hstep]; exact ih _

/-! ## The index invariant: buckets are nonempty and hold exactly the files
resolving to their key -/

/-- The invariant carried through `bucketAdd`. -/
theorem bucketAdd_invariant (R : String → String → Prop) (d : Index)
    (h p : String)
    (hd : ∀ kv ∈ d, kv.2 ≠ [] ∧ ∀ q ∈ kv.2, R q kv.1) (hp : R p h) :
    ∀ kv ∈ bucketAdd d h p, kv.2 ≠ [] ∧ ∀ q ∈ kv.2, R q kv.1 := by
  induction d with
  | nil =>
    intro kv hkv
    simp only [bucketAdd, List.mem_singleton] at hkv
    subst hkv
    exact ⟨by simp, by intro q hq; simp at hq; subst hq; exact hp⟩
  | cons kv0 rest ih =>
    intro kv hkv
    by_cases hk : kv0.1 = h
    · simp only [bucketAdd, hk, if_true] at hkv
      rcases List.mem_cons.1 hkv with hkv | hkv
      · subst hkv
        obtain ⟨hne, hall⟩ := hd kv0 (List.mem_cons_self _ _)
        refine ⟨by simp, ?_⟩
        intro q hq
        rcases List.mem_append.1 hq with hq | hq
        · simpa [hk] using hall q hq
        · simp at hq; subst hq; simpa [hk] using hp
      · exact hd kv (List.mem_cons_of_mem _ hkv)
    · simp only [bucketAdd, hk, if_false] at hkv
      rcases List.mem_cons.1 hkv with hkv | hkv
      · subst hkv; exact hd kv (List.mem_cons_self _ _)
      · exact ih (fun kv' hkv' => hd kv' (List.mem_cons_of_mem _ hkv')) kv hkv

/-- The invariant holds for the index built by the fold. -/
theorem foldl_indexStep_invariant (cache : List (String × String))
    (prov : String → String) (files : List String) (acc : Index × List String)
    (hacc : ∀ kv ∈ acc.1, kv.2 ≠ [] ∧ ∀ q ∈ kv.2, digestOf cache prov q = kv.1) :
    ∀ kv ∈ (files.foldl (indexStep cache prov) acc).1,
      kv.2 ≠ [] ∧ ∀ q ∈ kv.2, digestOf cache prov q = kv.1 := by
  induction files generalizing acc with
  | nil => exact hacc
  | cons p rest ih =>
    rw [List.foldl_cons]
    refine ih _ ?_
    rw [indexStep_fst]
    exact bucketAdd_invariant _ _ _ _ hacc rfl

/-! ## Walk sequences of directory trees -/

theorem visitedFiles_true_append (ap : String → String)
    (w1 w2 : List (String × List String)) :
    visitedFiles ap true (w1 ++ w2) =
      visitedFiles ap true w1 ++ visitedFiles ap true w2 := by
  induction w1 with
  | nil => rfl
  | cons e rest ih =>
    obtain ⟨d, fns⟩ := e
    simp [visitedFiles, ih]

mutual

theorem visitedFiles_walk_tree (ap : String → String) :
    (cur : String) → (t : FSTree) →
    visitedFiles ap true (FSTree.walk cur t) = FSTree.allFiles ap cur t
  | cur, .node fs sds => by
    simp only [FSTree.walk, FSTree.allFiles, visitedFiles, if_true]
    rw [visitedFiles_walk_forest ap cur sds]

theorem visitedFiles_walk_forest (ap : String → String) :
    (cur : String) → (f : FSForest) →
    visitedFiles ap true (FSForest.walk cur f) = FSForest.allFiles ap cur f
  | _, .nil => rfl
  | cur, .cons name t rest => by
    simp only [FSForest.walk, FSForest.allFiles]
    rw [visitedFiles_true_append, visitedFiles_walk_tree ap _ t,
      visitedFiles_walk_forest ap cur rest]

end

/-! ## Claims C5, C6, C7 -/

/-- C5: during index building, a file whose absolute path has a cache entry
takes the cached digest as-is: the digest provider is not invoked for it (it
is absent from the provider-call list, and the built state is unchanged under
any provider agreeing on the cache misses, so the cached value is never
cross-checked); only on a cache miss is the provider consulted, and the file
is appended to the bucket keyed by the resulting digest. -/
theorem C5_cache_hit_is_trusted (cache : List (String × String))
    (prov ap : String → String) (r : Bool) (w : List (String × List String))
    (p : String) (hp : p ∈ visitedFiles ap r w) :
    (∀ h, dictLookup cache p = some h →
      p ∉ (get_hash_dict cache prov ap r w).2 ∧
      p ∈ bucketGet (get_hash_dict cache prov ap r w).1 h) ∧
    (dictLookup cache p = none →
      p ∈ (get_hash_dict cache prov ap r w).2 ∧
      p ∈ bucketGet (get_hash_dict cache prov ap r w).1 (prov p)) ∧
    (∀ prov2, (∀ q, dictLookup cache q = none → prov q = prov2 q) →
      get_hash_dict cache prov ap r w = get_hash_dict cache prov2 ap r w) := by
  rw [get_hash_dict_eq_indexFiles]
  unfold indexFiles
  refine ⟨?_, ?_, ?_⟩
  · intro h hh
    constructor
    · rw [foldl_indexStep_snd]
      simp only [List.nil_append, List.mem_filter]
      rintro ⟨-, habs⟩
      rw [hh] at habs
      simp at habs
    · have := mem_bucketGet_foldl cache prov _ ([], []) p hp
      rwa [digestOf, hh] at this
  · intro hn
    constructor
    · rw [foldl_indexStep_snd]
      simp only [List.nil_append, List.mem_filter]
      exact ⟨hp, by rw [hn]; rfl⟩
    · have := mem_bucketGet_foldl cache prov _ ([], []) p hp
      rwa [digestOf, hn] at this
  · intro prov2 hag
    rw [get_hash_dict_eq_indexFiles cache prov2]
    unfold indexFiles
    exact foldl_indexStep_prov_agree cache prov prov2 hag _ _

/-- Witness for C5 at a concrete cached file: the cache supplies digest
`cafe` for `/a/f`; the provider (which would return `beef`) is not called and
the file lands in the `cafe` bucket. -/
theorem C5_witness :
    "/a/f" ∉ (get_hash_dict [("/a/f", "cafe")] (fun _ => "beef") id false
        [("/a", ["f"])]).2 ∧
    "/a/f" ∈ bucketGet (get_hash_dict [("/a/f", "cafe")] (fun _ => "beef") id false
        [("/a", ["f"])]).1 "cafe" :=
  (C5_cache_hit_is_trusted [("/a/f", "cafe")] (fun _ => "beef") id false
      [("/a", ["f"])] "/a/f" (by decide)).1 "cafe" (by decide)

/-- C6: with `recursive` false only the top-level directory's files are
visited and indexed; with `recursive` true every file of every subdirectory
is.  The first conjunct identifies `get_hash_dict` with indexing of the
visited-file list; the others compute that list on the walk of any tree. -/
theorem C6_walk_visits (cache : List (String × String))
    (prov ap : String → String) (r : Bool) (w : List (String × List String))
    (cur : String) (t : FSTree) :
    get_hash_dict cache prov ap r w = indexFiles cache prov (visitedFiles ap r w) ∧
    visitedFiles ap false (FSTree.walk cur t) = FSTree.topFiles ap cur t ∧
    visitedFiles ap true (FSTree.walk cur t) = FSTree.allFiles ap cur t := by
  refine ⟨get_hash_dict_eq_indexFiles cache prov ap r w, ?_, visitedFiles_walk_tree ap cur t⟩
  cases t with
  | node fs sds => simp [FSTree.walk, FSTree.topFiles, visitedFiles]

/-- C7: every index built by the indexer has no digest mapping to an empty
bucket, and every path occurs under at most one digest key (any two buckets
containing it carry the same key). -/
theorem C7_index_invariants (cache : List (String × String))
    (prov ap : String → String) (r : Bool) (w : List (String × List String)) :
    (∀ kv ∈ (get_hash_dict cache prov ap r w).1, kv.2 ≠ []) ∧
    (∀ kv1 kv2, kv1 ∈ (get_hash_dict cache prov ap r w).1 →
      kv2 ∈ (get_hash_dict cache prov ap r w).1 →
      ∀ q, q ∈ kv1.2 → q ∈ kv2.2 → kv1.1 = kv2.1) := by
  rw [get_hash_dict_eq_indexFiles]
  unfold indexFiles
  have hinv := foldl_indexStep_invariant cache prov (visitedFiles ap r w)
    ([], []) (by simp)
  constructor
  · intro kv hkv; exact (hinv kv hkv).1
  · intro kv1 kv2 h1 h2 q hq1 hq2
    have e1 := (hinv kv1 h1).2 q hq1
    have e2 := (hinv kv2 h2).2 q hq2
    rw [← e1, ← e2]

/-- Witness for C7 on a concrete two-file directory with equal content. -/
theorem C7_witness :
    (["/a/f", "/a/g"] : List String) ≠ [] :=
  (C7_index_invariants [] (fun _ => "h") id false [("/a", ["f", "g"])]).1
    ("h", ["/a/f", "/a/g"]) (by decide)

/-! ## Membership in the directory report -/

theorem mem_ite_list {α : Type} (x : α) (c : Prop) [Decidable c] (l1 l2 : List α) :
    (x ∈ if c then l1 else l2) ↔ (c ∧ x ∈ l1) ∨ (¬c ∧ x ∈ l2) := by
  by_cases h : c <;> simp [h]

theorem hasKey_eq_true_iff {α : Type} (d : List (String × α)) (k : String) :
    hasKey d k = true ↔ ∃ kv ∈ d, kv.1 = k := by
  simp [hasKey, List.any_eq_true]

theorem hasKey_of_mem {α : Type} {d : List (String × α)} {kv : String × α}
    (h : kv ∈ d) : hasKey d kv.1 = true :=
  (hasKey_eq_true_iff d kv.1).2 ⟨kv, h, rfl⟩

/-- The final `content_redundancy` flag is key-set equality of the two
indexes. -/
theorem content_redundancy_eq_true_iff (d1 d2 : Index) :
    content_redundancy d1 d2 = true ↔ ∀ k, hasKey d1 k = hasKey d2 k := by
  unfold content_redundancy
  simp only [Bool.and_eq_true, List.all_eq_true]
  constructor
  · rintro ⟨h1, h2⟩ k
    cases hk1 : hasKey d1 k with
    | true =>
      obtain ⟨kv, hkv, hkeq⟩ := (hasKey_eq_true_iff d1 k).1 hk1
      rw [← hkeq]
      exact (h1 kv hkv).symm
    | false =>
      cases hk2 : hasKey d2 k with
      | false => rfl
      | true =>
        obtain ⟨kv, hkv, hkeq⟩ := (hasKey_eq_true_iff d2 k).1 hk2
        rw [← hkeq] at hk1
        rw [h2 kv hkv] at hk1
        cases hk1
  · intro h
    constructor
    · intro kv hkv
      rw [← h kv.1]
      exact hasKey_of_mem hkv
    · intro kv hkv
      rw [h kv.1]
      exact hasKey_of_mem hkv

/-- The overall directory verdict line is emitted exactly when the flag is
still set. -/
theorem sdc_verdict_iff (d1 d2 : Index) :
    Line.verdictDirs ∈ show_directory_comparison d1 d2 ↔
      content_redundancy d1 d2 = true := by
  unfold show_directory_comparison
  by_cases hc : content_redundancy d1 d2 = true <;>
    simp [hc, mem_ite_list, List.mem_flatMap]

/-- C2: the verdict `=input directories are redundant` is emitted iff the two
indexes have the same set of digest keys, whatever the buckets hold; and the
empty-versus-empty comparison emits exactly that verdict and nothing else. -/
theorem C2_directory_verdict_is_keyset_equality (d1 d2 : Index) :
    (Line.verdictDirs ∈ show_directory_comparison d1 d2 ↔
      ∀ k, hasKey d1 k = hasKey d2 k) ∧
    show_directory_comparison [] [] = [Line.verdictDirs] :=
  ⟨(sdc_verdict_iff d1 d2).trans (content_redundancy_eq_true_iff d1 d2), rfl⟩

/-- A redundant line for digest `h` appears exactly when `h` is a key on both
sides. -/
theorem sdc_redundant_exists_iff (d1 d2 : Index) (h : String) :
    (∃ ps, Line.redundant h ps ∈ show_directory_comparison d1 d2) ↔
      (hasKey d1 h = true ∧ hasKey d2 h = true) := by
  simp only [show_directory_comparison, List.mem_append, List.mem_map,
    List.mem_filter, List.mem_flatMap, mem_ite_list]
  constructor
  · rintro ⟨ps, hmem⟩
    simp [mem_ite_list] at hmem
    obtain ⟨a, b, hmem, hk1, rfl, rfl⟩ := hmem
    exact ⟨hk1, hasKey_of_mem hmem⟩
  · rintro ⟨hk1, hk2⟩
    obtain ⟨kv, hkv, hkeq⟩ := (hasKey_eq_true_iff d2 h).1 hk2
    subst hkeq
    refine ⟨bucketGet d1 kv.1 ++ kv.2, ?_⟩
    simp [mem_ite_list]
    exact ⟨kv.1, kv.2, by simpa using hkv, hk1, rfl, rfl⟩

/-- The flag, hence the verdict, is symmetric in the two indexes. -/
theorem content_redundancy_comm (d1 d2 : Index) :
    content_redundancy d1 d2 = content_redundancy d2 d1 := by
  unfold content_redundancy
  exact Bool.and_comm _ _

/-- C8: directory comparison is symmetric: swapping the inputs swaps the
Unique-Left/Unique-Right findings and the Internal-Duplicate-Left/Right
findings, keeps the set of Redundant digests, and keeps the overall
verdict. -/
theorem C8_directory_symmetry (d1 d2 : Index) :
    (∀ h l, Line.dupL h l ∈ show_directory_comparison d1 d2 ↔
      Line.dupR h l ∈ show_directory_comparison d2 d1) ∧
    (∀ h p, Line.uniqL h p ∈ show_directory_comparison d1 d2 ↔
      Line.uniqR h p ∈ show_directory_comparison d2 d1) ∧
    (∀ h, (∃ ps, Line.redundant h ps ∈ show_directory_comparison d1 d2) ↔
      (∃ ps, Line.redundant h ps ∈ show_directory_comparison d2 d1)) ∧
    (Line.verdictDirs ∈ show_directory_comparison d1 d2 ↔
      Line.verdictDirs ∈ show_directory_comparison d2 d1) := by
  refine ⟨?_, ?_, ?_, ?_⟩
  · intro h l
    simp [show_directory_comparison, mem_ite_list, List.mem_flatMap]
  · intro h p
    simp only [show_directory_comparison, List.mem_append, List.mem_map,
      List.mem_filter, List.mem_flatMap, mem_ite_list]
    simp [mem_ite_list]
    tauto
  · intro h
    exact (sdc_redundant_exists_iff d1 d2 h).trans
      ((and_comm).trans (sdc_redundant_exists_iff d2 d1 h).symm)
  · rw [sdc_verdict_iff, sdc_verdict_iff, content_redundancy_comm]

/-! ## Claims C3, C10, C1 -/

/-- C3: in file mode, equal digests report the redundant pair (when the two
given paths are textually distinct) and the overall file verdict and return
normally; unequal digests print the left `<` and right `>` digest/path lines
and exit with status 1. -/
theorem C3_file_mode_report (prov ap : String → String) (p1 p2 : String) :
    (prov p1 = prov p2 → p1 ≠ p2 →
      show_file_comparison prov ap p1 p2 =
        ([Line.redundant (prov p1) [ap p1, ap p2], Line.verdictFiles], none)) ∧
    (prov p1 = prov p2 → p1 = p2 →
      show_file_comparison prov ap p1 p2 = ([Line.verdictFiles], none)) ∧
    (prov p1 ≠ prov p2 →
      show_file_comparison prov ap p1 p2 =
        ([Line.uniqL (prov p1) (ap p1), Line.uniqR (prov p2) (ap p2)], some 1)) := by
  refine ⟨?_, ?_, ?_⟩
  · intro hh hp
    simp [show_file_comparison, hh, hp]
  · intro hh hp
    simp [show_file_comparison, hh, hp]
  · intro hh
    simp [show_file_comparison, hh]

/-- Witness for C3: distinct paths with equal digests report the pair and
the verdict and return normally. -/
theorem C3_witness :
    show_file_comparison (fun _ => "aa") id "f1" "f2" =
      ([Line.redundant "aa" ["f1", "f2"], Line.verdictFiles], none) :=
  (C3_file_mode_report (fun _ => "aa") id "f1" "f2").1 rfl (by decide)

/-- C10: when both paths exist but one of them is neither a regular file nor
a directory, `main` matches no dispatch branch: nothing is printed and it
returns normally (process exit status 0). -/
theorem C10_no_branch_for_special_files (i1 i2 : PathInfo) (p1 p2 : String)
    (prov ap : String → String) (cache : List (String × String))
    (recursive : Bool) (w1 w2 : List (String × List String))
    (he1 : i1.pathExists = true) (he2 : i2.pathExists = true)
    (hspecial : (i1.isFile = false ∧ i1.isDir = false) ∨
      (i2.isFile = false ∧ i2.isDir = false)) :
    xcompMain i1 i2 p1 p2 prov ap cache recursive w1 w2 = ([], none) := by
  rcases hspecial with ⟨hf, hd⟩ | ⟨hf, hd⟩ <;>
    simp [xcompMain, hf, hd, he1, he2]

/-- Witness for C10: a FIFO (exists, neither file nor directory) compared
with a regular file produces no output and no failure exit. -/
theorem C10_witness :
    xcompMain ⟨false, false, true⟩ ⟨true, false, true⟩ "/fifo" "/f"
      (fun _ => "aa") id [] false [] [] = ([], none) :=
  C10_no_branch_for_special_files ⟨false, false, true⟩ ⟨true, false, true⟩
    "/fifo" "/f" (fun _ => "aa") id [] false [] [] rfl rfl (Or.inl ⟨rfl, rfl⟩)

/-- C1 counterexample: a directory comparison with a digest unique to the
left side (the claim calls this non-redundant and demands exit status 1)
nevertheless returns normally from `main`: the directory branch contains no
`raise SystemExit`, so the process exits with status 0. -/
theorem C1_counterexample :
    content_redundancy
        (get_hash_dict [] (fun _ => "aa") id false [("/a", ["f"])]).1
        (get_hash_dict [] (fun _ => "aa") id false [("/b", [])]).1 = false ∧
    (xcompMain ⟨false, true, true⟩ ⟨false, true, true⟩ "/a" "/b"
        (fun _ => "aa") id [] false [("/a", ["f"])] [("/b", [])]).2 = none := by
  exact ⟨rfl, rfl⟩

/-- C1 amended: in directory mode the process always exits with status 0,
whether or not the directories are content-redundant; in particular the
fully redundant comparison exits 0, as the claim states, but the
non-redundant one does too. -/
theorem C1_amended_directory_mode_always_exits_zero (i1 i2 : PathInfo)
    (p1 p2 : String) (prov ap : String → String)
    (cache : List (String × String)) (recursive : Bool)
    (w1 w2 : List (String × List String))
    (hd1 : i1.isDir = true) (hd2 : i2.isDir = true)
    (hnotfile : i1.isFile = false ∨ i2.isFile = false) :
    (xcompMain i1 i2 p1 p2 prov ap cache recursive w1 w2).2 = none := by
  rcases hnotfile with hf | hf <;> simp [xcompMain, hd1, hd2, hf]

/-- Witness for the amended C1 at the counterexample's input. -/
theorem C1_amended_witness :
    (xcompMain ⟨false, true, true⟩ ⟨false, true, true⟩ "/a" "/b"
        (fun _ => "aa") id [] false [("/a", ["f"])] [("/b", [])]).2 = none :=
  C1_amended_directory_mode_always_exits_zero ⟨false, true, true⟩
    ⟨false, true, true⟩ "/a" "/b" (fun _ => "aa") id [] false
    [("/a", ["f"])] [("/b", [])] rfl rfl (Or.inl rfl)

/-! ## Claim C4: cache construction -/

theorem loadCacheGo_error_of_missing (ap : String → String) :
    ∀ (sources : List CacheSource) (st : List (String × String) × Bool),
    (∃ s ∈ sources, s.present = false) → loadCacheGo ap sources st = .error 1 := by
  intro sources
  induction sources with
  | nil => rintro st ⟨s, hs, -⟩; cases hs
  | cons s rest ih =>
    rintro st ⟨s0, hs0, hpres⟩
    cases hp : s.present with
    | false => simp [loadCacheGo, hp]
    | true =>
      rcases List.mem_cons.1 hs0 with rfl | hs0
      · rw [hp] at hpres; cases hpres
      · simp only [loadCacheGo, hp, if_true]
        exact ih _ ⟨s0, hs0, hpres⟩

theorem loadCacheGo_ok_of_present (ap : String → String) :
    ∀ (sources : List CacheSource) (st : List (String × String) × Bool),
    (∀ s ∈ sources, s.present = true) →
    loadCacheGo ap sources st =
      .ok (sources.foldl (fun st s => s.fileLines.foldl (cacheLinesFold ap) st) st) := by
  intro sources
  induction sources with
  | nil => intro st _; rfl
  | cons s rest ih =>
    intro st hpres
    have hp : s.present = true := hpres s (List.mem_cons_self _ _)
    simp only [loadCacheGo, hp, if_true, List.foldl_cons]
    exact ih _ (fun s2 hs2 => hpres s2 (List.mem_cons_of_mem _ hs2))

/-- The match flag after one source's lines. -/
theorem foldl_cacheLinesFold_snd (ap : String → String) (lines : List String)
    (st : List (String × String) × Bool) :
    (lines.foldl (cacheLinesFold ap) st).2 =
      (st.2 || lines.any (fun l => (parseLine l).isSome)) := by
  induction lines generalizing st with
  | nil => simp
  | cons l rest ih =>
    rw [List.foldl_cons, ih]
    cases hl : parseLine l with
    | some dp => simp [cacheLinesFold, hl]
    | none => simp [cacheLinesFold, hl]

/-- The match flag after all sources. -/
theorem foldl_sources_snd (ap : String → String) (sources : List CacheSource)
    (st : List (String × String) × Bool) :
    (sources.foldl (fun st s => s.fileLines.foldl (cacheLinesFold ap) st) st).2 =
      (st.2 || sources.any (fun s => s.fileLines.any (fun l => (parseLine l).isSome))) := by
  induction sources generalizing st with
  | nil => simp
  | cons s rest ih =>
    rw [List.foldl_cons, ih, foldl_cacheLinesFold_snd]
    simp [Bool.or_assoc]

theorem hasKey_cons {α : Type} (kv : String × α) (d : List (String × α))
    (k : String) :
    hasKey (kv :: d) k = (decide (kv.1 = k) || hasKey d k) := by
  simp [hasKey]

theorem hasKey_dictInsert_self (d : List (String × String)) (k v : String) :
    hasKey (dictInsert d k v) k = true := by
  induction d with
  | nil => simp [dictInsert, hasKey]
  | cons kv rest ih =>
    by_cases hk : kv.1 = k
    · simp [dictInsert, hk, hasKey_cons]
    · simp only [dictInsert, hk, if_false, hasKey_cons]
      simp [ih]

theorem hasKey_dictInsert_of (d : List (String × String)) (k v k' : String)
    (h : hasKey d k' = true) : hasKey (dictInsert d k v) k' = true := by
  induction d with
  | nil => simp [hasKey] at h
  | cons kv rest ih =>
    rw [hasKey_cons, Bool.or_eq_true] at h
    by_cases hk : kv.1 = k
    · simp only [dictInsert, hk, if_true, hasKey_cons]
      rcases h with h1 | h2
      · have hkk : kv.1 = k' := of_decide_eq_true h1
        have : k = k' := hk ▸ hkk
        simp [this]
      · simp [h2]
    · simp only [dictInsert, hk, if_false, hasKey_cons]
      rcases h with h1 | h2
      · simp [of_decide_eq_true h1]
      · simp [ih h2]

theorem cacheLinesFold_key (ap : String → String)
    (st : List (String × String) × Bool) (l : String) (k : String)
    (h : hasKey st.1 k = true) : hasKey (cacheLinesFold ap st l).1 k = true := by
  unfold cacheLinesFold
  cases hpl : parseLine l with
  | none => exact h
  | some dp => exact hasKey_dictInsert_of _ _ _ _ h

theorem foldl_cacheLinesFold_key_preserve (ap : String → String)
    (lines : List String) (st : List (String × String) × Bool) (k : String)
    (h : hasKey st.1 k = true) :
    hasKey ((lines.foldl (cacheLinesFold ap) st).1) k = true := by
  induction lines generalizing st with
  | nil => exact h
  | cons l rest ih =>
    rw [List.foldl_cons]
    exact ih _ (cacheLinesFold_key ap st l k h)

theorem foldl_cacheLinesFold_key_add (ap : String → String)
    (lines : List String) (st : List (String × String) × Bool)
    (l dg p : String) (hl : l ∈ lines) (hp : parseLine l = some (dg, p)) :
    hasKey ((lines.foldl (cacheLinesFold ap) st).1) (ap p) = true := by
  induction lines generalizing st with
  | nil => cases hl
  | cons l0 rest ih =>
    rw [List.foldl_cons]
    rcases List.mem_cons.1 hl with rfl | hl0
    · refine foldl_cacheLinesFold_key_preserve ap rest _ _ ?_
      unfold cacheLinesFold
      rw [hp]
      exact hasKey_dictInsert_self _ _ _
    · exact ih _ hl0

theorem foldl_sources_key_preserve (ap : String → String)
    (sources : List CacheSource) (st : List (String × String) × Bool)
    (k : String) (h : hasKey st.1 k = true) :
    hasKey ((sources.foldl
      (fun st s => s.fileLines.foldl (cacheLinesFold ap) st) st).1) k = true := by
  induction sources generalizing st with
  | nil => exact h
  | cons s rest ih =>
    rw [List.foldl_cons]
    exact ih _ (foldl_cacheLinesFold_key_preserve ap _ st k h)

theorem foldl_sources_key_add (ap : String → String)
    (sources : List CacheSource) (st : List (String × String) × Bool)
    (s : CacheSource) (l dg p : String) (hs : s ∈ sources)
    (hl : l ∈ s.fileLines) (hp : parseLine l = some (dg, p)) :
    hasKey ((sources.foldl
      (fun st s => s.fileLines.foldl (cacheLinesFold ap) st) st).1) (ap p) = true := by
  induction sources generalizing st with
  | nil => cases hs
  | cons s0 rest ih =>
    rw [List.foldl_cons]
    rcases List.mem_cons.1 hs with rfl | hs0
    · exact foldl_sources_key_preserve ap rest _ _
        (foldl_cacheLinesFold_key_add ap _ st l dg p hl hp)
    · exact ih _ hs0

/-- C4: cache construction fails with exit status 1 when a listed source is
missing, and when no line of any source matches the record regex; otherwise
it succeeds, skipping unmatched lines, and every matched line's path,
canonicalized by `ap`, keys an entry of the built cache. -/
theorem C4_cache_build (ap : String → String) (sources : List CacheSource) :
    ((∃ s ∈ sources, s.present = false) → load_hash_cache ap sources = .error 1) ∧
    ((∀ s ∈ sources, s.present = true) →
      (∀ s ∈ sources, ∀ l ∈ s.fileLines, parseLine l = none) →
      load_hash_cache ap sources = .error 1) ∧
    ((∀ s ∈ sources, s.present = true) →
      ∀ s ∈ sources, ∀ l ∈ s.fileLines, ∀ dg p, parseLine l = some (dg, p) →
      ∃ cache, load_hash_cache ap sources = .ok cache ∧
        hasKey cache (ap p) = true) := by
  refine ⟨?_, ?_, ?_⟩
  · intro hmiss
    unfold load_hash_cache
    rw [loadCacheGo_error_of_missing ap sources _ hmiss]
  · intro hpres hnone
    unfold load_hash_cache
    rw [loadCacheGo_ok_of_present ap sources _ hpres]
    have hany : sources.any
        (fun s => s.fileLines.any (fun l => (parseLine l).isSome)) = false := by
      rw [List.any_eq_false]
      intro s hs
      rw [Bool.not_eq_true, List.any_eq_false]
      intro l hl
      simp [hnone s hs l hl]
    have hflag := foldl_sources_snd ap sources ([], false)
    rw [hany] at hflag
    simp only [Bool.or_false] at hflag
    simp [hflag]
  · intro hpres s hs l hl dg p hp
    unfold load_hash_cache
    rw [loadCacheGo_ok_of_present ap sources _ hpres]
    have hany : sources.any
        (fun s => s.fileLines.any (fun l => (parseLine l).isSome)) = true := by
      rw [List.any_eq_true]
      exact ⟨s, hs, by rw [List.any_eq_true]; exact ⟨l, hl, by simp [hp]⟩⟩
    have hflag := foldl_sources_snd ap sources ([], false)
    rw [hany] at hflag
    simp only [Bool.or_true] at hflag
    exact ⟨_, by simp [hflag],
      foldl_sources_key_add ap sources ([], false) s l dg p hs hl hp⟩

/-- Witness for C4: one missing source makes the build fail with status 1. -/
theorem C4_witness :
    load_hash_cache id [CacheSource.mk false []] = .error 1 :=
  (C4_cache_build id [CacheSource.mk false []]).1
    ⟨CacheSource.mk false [], List.mem_singleton.2 rfl, rfl⟩

/-! ## Claim C9: the permissive cache-line regex -/

theorem searchLine_isSome_append (u l : List Char)
    (h : (matchHere l).isSome = true) : (searchLine (u ++ l)).isSome = true := by
  induction u with
  | nil =>
    cases l with
    | nil => simp [matchHere] at h
    | cons c rest =>
      rw [List.nil_append]
      unfold searchLine
      cases hm : matchHere (c :: rest) with
      | some r => simp
      | none => rw [hm] at h; simp at h
  | cons a u' ih =>
    rw [List.cons_append]
    unfold searchLine
    cases hm : matchHere (a :: (u' ++ l)) with
    | some r => simp
    | none => simpa using ih

theorem tryWs_isSome_of (after : List Char) :
    ∀ (bound i : Nat), 1 ≤ i → i ≤ bound →
    (matchAfterWs (after.drop i)).isSome = true →
    (tryWs after bound).isSome = true := by
  intro bound
  induction bound with
  | zero => intro i h1 h0 _; omega
  | succ w ih =>
    intro i h1 hle hm
    unfold tryWs
    cases hw : matchAfterWs (after.drop (w + 1)) with
    | some g2 => simp
    | none =>
      simp only
      rcases Nat.lt_or_ge i (w + 1) with hlt | hge
      · exact ih i h1 (by omega) hm
      · have : i = w + 1 := by omega
        rw [this, hw] at hm
        simp at hm

theorem length_le_takeWhile_append (p : Char → Bool) :
    ∀ (l r : List Char), (∀ x ∈ l, p x = true) →
    l.length ≤ ((l ++ r).takeWhile p).length := by
  intro l
  induction l with
  | nil => intro r _; simp
  | cons a l' ih =>
    intro r hall
    rw [List.cons_append, List.takeWhile_cons]
    rw [hall a (List.mem_cons_self _ _)]
    simpa using ih r (fun x hx => hall x (List.mem_cons_of_mem _ hx))

theorem matchHere_isSome (h16 ws : List Char) (c : Char) (v : List Char)
    (hlen : h16.length = 16) (hhex : h16.all isHexLower = true)
    (hwsne : ws ≠ []) (hws : ∀ x ∈ ws, isWs x = true) (hc : isPathChar c = true) :
    (matchHere (h16 ++ (ws ++ c :: v))).isSome = true := by
  have htake : (h16 ++ (ws ++ c :: v)).take 16 = h16 := List.take_left' hlen
  have hdrop : (h16 ++ (ws ++ c :: v)).drop 16 = ws ++ c :: v := List.drop_left' hlen
  unfold matchHere
  rw [htake, hdrop]
  have hcond : (decide ((h16.length) = 16) && h16.all isHexLower) = true := by
    rw [hlen, hhex]
    decide
  rw [if_pos hcond]
  have hcq : ¬ c = quoteChar := by
    intro hq
    rw [hq] at hc
    simp [isPathChar] at hc
  have hmw : (matchAfterWs ((ws ++ c :: v).drop ws.length)).isSome = true := by
    rw [List.drop_left' rfl]
    simp [matchAfterWs, hcq, hc]
  have hlb : ws.length ≤ ((ws ++ c :: v).takeWhile isWs).length :=
    length_le_takeWhile_append isWs ws (c :: v) hws
  have h1 : 1 ≤ ws.length := by
    cases ws with
    | nil => cases hwsne rfl
    | cons _ _ => simp
  have := tryWs_isSome_of (ws ++ c :: v) ((ws ++ c :: v).takeWhile isWs).length
    ws.length h1 hlb hmw
  cases htw : tryWs (ws ++ c :: v) ((ws ++ c :: v).takeWhile isWs).length with
  | some g2 => simp
  | none => rw [htw] at this; simp at this

/-- C9: the cache-line parser accepts any line containing, anywhere in it,
16 lowercase-hex characters followed by whitespace and a character outside
quote/newline: the match need not span the whole line.  The two concrete
builds confirm that such lines outside the documented record shape (extra
leading text, a digest cut out of a 17-hex-character run) still insert an
entry, with the path group running to the first single quote or to the end
of the line. -/
theorem C9_permissive_line_acceptance (u h16 ws : List Char) (c : Char)
    (v : List Char) (hlen : h16.length = 16) (hhex : h16.all isHexLower = true)
    (hwsne : ws ≠ []) (hws : ∀ x ∈ ws, isWs x = true)
    (hc : isPathChar c = true) :
    (parseLine ⟨u ++ (h16 ++ (ws ++ c :: v))⟩).isSome = true ∧
    load_hash_cache id [CacheSource.mk true
        ["garbage here", "zz00123456789abcdef\t'my path'x"]] =
      .ok [("my path", "0123456789abcdef")] ∧
    load_hash_cache id [CacheSource.mk true
        ["0123456789abcdee  stuff to end"]] =
      .ok [("stuff to end", "0123456789abcdee")] := by
  refine ⟨?_, by rfl, by rfl⟩
  unfold parseLine
  have hs := searchLine_isSome_append u (h16 ++ (ws ++ c :: v))
    (matchHere_isSome h16 ws c v hlen hhex hwsne hws hc)
  cases hsl : searchLine (String.mk (u ++ (h16 ++ (ws ++ c :: v)))).data with
  | some r => simp
  | none =>
    simp only [String.data] at hsl
    rw [hsl] at hs
    simp at hs

/-- Witness for C9 on the line `xy0123456789abcdef p`. -/
theorem C9_witness :
    (parseLine ⟨['x', 'y'] ++ ("0123456789abcdef".data ++ ([' '] ++ 'p' :: []))⟩).isSome
      = true :=
  (C9_permissive_line_acceptance ['x', 'y'] "0123456789abcdef".data [' '] 'p' []
    (by decide) (by decide) (by decide) (by decide) (by decide)).1
